import Mathlib

/-!
Shallow embedding of the folder-hierarchy core of `src/app.py`
(`build_folder_hierarchy`, `find_folder_by_id_in_hierarchy`, and the
request handler `folders_get_children`), together with theorems settling
the specification claims about them.

Conventions of the embedding:
* A SharePoint list item (a JSON object) is modelled by `RawItem`, keeping
  exactly the fields the embedded code reads: `item["@odata.etag"]`,
  `item["parentReference"]["id"]`, `item["fields"]["FileLeafRef"]`,
  `item["fields"]["ContentType"]`.  A missing field is `none`.
* A Python `dict` (insertion ordered, overwriting a key keeps the key's
  original position and replaces the value) is modelled by an association
  list with the insert operation `dictInsert`.
* Python truthiness of an optional string (`if pid and ...`) is
  `pyTruthy`: `None` and the empty string are falsy.
* Python `str.lower` is modelled per character by `Char.toLower`
  (ASCII lowering), string comparison by code-point lexicographic order
  (`charListLe`), and the stable `list.sort(key=...)` by the stable
  `List.insertionSort`.
-/

/-- One item of the flat batch returned by the remote list API, restricted
to the fields the embedded code reads. -/
structure RawItem where
  odataEtag : Option String
  parentReferenceId : Option String
  fileLeafRef : Option String
  contentType : Option String
deriving Repr, DecidableEq

/-- Python `s.strip('"')` on the character list: drop every leading and
trailing double-quote character. -/
def pyStripQuote (l : List Char) : List Char :=
  ((l.dropWhile (· == '"')).reverse.dropWhile (· == '"')).reverse

/-- `etag_str.strip('"').split(",")[0]` from `app.py` (both in
`build_folder_hierarchy` and in the local helper `extract_server_id` of
`folders_get_children`): the substring of the quote-stripped etag before
the first comma; `item.get("@odata.etag", "")` defaults a missing etag
to the empty string. -/
def extract_server_id (item : RawItem) : String :=
  ⟨(pyStripQuote (item.odataEtag.getD "").data).takeWhile (· ≠ ',')⟩

/-- Python truthiness of the optional `parentReference.id` string:
`None` and `""` are falsy. -/
def pyTruthy : Option String → Bool
  | none => false
  | some s => s ≠ ""

/-- The value stored in the `nodes` dict of `build_folder_hierarchy`
before children are attached: `{"name": ..., "serverID": ...,
"parentID": ..., "children": [], "rawItem": item}`. -/
structure NodeEntry where
  name : Option String
  serverID : String
  parentID : Option String
  rawItem : RawItem
deriving Repr, DecidableEq

/-- The node value built for one item in the first pass of
`build_folder_hierarchy`. -/
def mkNodeEntry (item : RawItem) : NodeEntry :=
  { name := item.fileLeafRef
    serverID := extract_server_id item
    parentID := item.parentReferenceId
    rawItem := item }

/-- Python dict insertion on an association list: overwriting an existing
key keeps its position, a new key is appended. -/
def dictInsert (m : List (String × NodeEntry)) (k : String) (v : NodeEntry) :
    List (String × NodeEntry) :=
  if m.any (fun p => p.1 = k) then
    m.map (fun p => if p.1 = k then (k, v) else p)
  else m ++ [(k, v)]

/-- Python `k in nodes`. -/
def keyMem (m : List (String × NodeEntry)) (k : String) : Bool :=
  m.any (fun p => p.1 = k)

/-- Python `nodes[k]` (as an option; in the embedded code the key is
always checked first). -/
def dictGet (m : List (String × NodeEntry)) (k : String) : Option NodeEntry :=
  (m.find? (fun p => p.1 = k)).map (·.2)

/-- The first pass of `build_folder_hierarchy`: fill the `nodes` dict,
keyed by the derived server id, in input order. -/
def buildNodes (items : List RawItem) : List (String × NodeEntry) :=
  items.foldl (fun m it => dictInsert m (extract_server_id it) (mkNodeEntry it)) []

/-- The test of the second pass of `build_folder_hierarchy`:
`if pid and pid in nodes` — the entry is attached as a child exactly when
its parent id is truthy and is a key of the dict. -/
def isChildCond (m : List (String × NodeEntry)) (e : NodeEntry) : Bool :=
  pyTruthy e.parentID && keyMem m (e.parentID.getD "")

/-- The entries appended to `roots` by the second pass, in dict order. -/
def rootEntries (m : List (String × NodeEntry)) : List NodeEntry :=
  (m.filter (fun p => ! isChildCond m p.2)).map (·.2)

/-- The entries appended to `nodes[k]["children"]` by the second pass, in
dict order. -/
def childEntries (m : List (String × NodeEntry)) (k : String) : List NodeEntry :=
  (m.filter (fun p => isChildCond m p.2 && p.2.parentID.getD "" = k)).map (·.2)

/-- A fully linked folder node as returned by `build_folder_hierarchy`
(the Python dicts reference each other; here the reachable structure is
materialized). -/
inductive FolderNode : Type where
  | mk (name : Option String) (serverID : String) (parentID : Option String)
      (rawItem : RawItem) (children : List FolderNode) : FolderNode
deriving Repr

def FolderNode.name : FolderNode → Option String
  | .mk n _ _ _ _ => n

def FolderNode.serverID : FolderNode → String
  | .mk _ s _ _ _ => s

def FolderNode.parentID : FolderNode → Option String
  | .mk _ _ p _ _ => p

def FolderNode.rawItem : FolderNode → RawItem
  | .mk _ _ _ r _ => r

def FolderNode.children : FolderNode → List FolderNode
  | .mk _ _ _ _ c => c

/-- Materialize the node of entry `e` together with the children attached
to it by the second pass.  The Python structure links nodes by reference;
`fuel` bounds the unfolding depth and is chosen large enough
(`m.length`) that every node reachable from a root is unfolded exactly
(a parent chain that terminates never repeats a key, so reachable depth
is below the number of keys). -/
def materializeNode (m : List (String × NodeEntry)) : Nat → NodeEntry → FolderNode
  | 0 => fun e => .mk e.name e.serverID e.parentID e.rawItem []
  | fuel + 1 => fun e =>
      .mk e.name e.serverID e.parentID e.rawItem
        ((childEntries m e.serverID).map (materializeNode m fuel))

/-- `build_folder_hierarchy` from `app.py`: first pass fills the dict,
second pass attaches each node to its parent's children or to `roots`;
the returned value is the `roots` list of linked nodes. -/
def build_folder_hierarchy (items : List RawItem) : List FolderNode :=
  let m := buildNodes items
  (rootEntries m).map (materializeNode m m.length)

/-- `find_folder_by_id_in_hierarchy` from `app.py`: pre-order,
left-to-right search of the forest for a node whose `serverID` matches. -/
def find_folder_by_id_in_hierarchy : List FolderNode → String → Option FolderNode
  | [], _ => none
  | .mk n s p r c :: rest, target =>
    if s = target then some (.mk n s p r c)
    else
      match find_folder_by_id_in_hierarchy c target with
      | some res => some res
      | none => find_folder_by_id_in_hierarchy rest target

/-- The pre-order, left-to-right flattening of a forest (each node before
its children, children before later siblings). -/
def preorderNodes : List FolderNode → List FolderNode
  | [] => []
  | .mk n s p r c :: rest => .mk n s p r c :: (preorderNodes c ++ preorderNodes rest)

/-- The ids met by traversing a forest, in pre-order. -/
def forestIds (f : List FolderNode) : List String :=
  (preorderNodes f).map FolderNode.serverID

/-- One upward step in the parent relation the second pass realizes:
from a key to the key of the dict entry it is attached to as a child
(`none` when the entry is appended to `roots` instead). -/
def parentStep (m : List (String × NodeEntry)) (k : String) : Option String :=
  match dictGet m k with
  | none => none
  | some e =>
    match e.parentID with
    | none => none
    | some p => if p = "" then none else if keyMem m p then some p else none

/-- `parentStep` lifted to `Option`. -/
def pstep (m : List (String × NodeEntry)) : Option String → Option String
  | none => none
  | some k => parentStep m k

/-- Iterate `pstep` `j` times (chase the parent chain upward). -/
def chase (m : List (String × NodeEntry)) : Nat → Option String → Option String
  | 0, o => o
  | j + 1, o => pstep m (chase m j o)

/-- Keep the first occurrence of every element, in order (the key order
of a Python dict filled from a possibly repeating stream). -/
def firstOccurrences (l : List String) : List String :=
  l.foldl (fun acc k => if k ∈ acc then acc else acc ++ [k]) []

/-- One entry of the `childrenFolders` list built by
`folders_get_children`. -/
structure ChildFolder where
  name : Option String
  serverId : String
deriving Repr, DecidableEq

/-- Python `str.lower` (per-character ASCII lowering in this embedding). -/
def pyLower (s : String) : String :=
  s.map Char.toLower

/-- Lexicographic less-or-equal on code points, the order Python uses to
compare strings. -/
def charListLe : List Char → List Char → Bool
  | [], _ => true
  | _ :: _, [] => false
  | a :: as, b :: bs =>
    if a.toNat < b.toNat then true
    else if b.toNat < a.toNat then false
    else charListLe as bs

/-- The comparison realized by
`child_folders.sort(key=lambda x: x["name"].lower())`. -/
def childNameLe (a b : ChildFolder) : Bool :=
  charListLe (pyLower (a.name.getD "")).data (pyLower (b.name.getD "")).data

/-- Outcome of the `folders_get_children` handler:
`notFound` is the 404 raised when no item matches, `attrError` is the
uncaught `AttributeError` raised by `None.lower()` when a collected
child has no display name, and `ok` carries the response fields
`queriedFolderParentId`, `queriedFolderParentName`,
`queriedFolderServerId`, `queriedFolderName`, `childrenFolders`. -/
inductive FGCResult : Type where
  | notFound : FGCResult
  | attrError : FGCResult
  | ok (queriedFolderParentId : Option String) (queriedFolderParentName : Option String)
      (queriedFolderServerId : String) (queriedFolderName : Option String)
      (childrenFolders : List ChildFolder) : FGCResult
deriving Repr, DecidableEq

/-- `folders_get_children` from `app.py`, as a function of the fetched
batch and the path parameter: locate the queried item by derived id
(first match), resolve its parent's name when the parent id is truthy
(first match again), collect the items whose `parentReference.id` equals
the queried id and whose `ContentType` is `"Folder"`, and sort them by
lower-cased name (`None.lower()` raises). -/
def folders_get_children (all_items : List RawItem) (server_id : String) : FGCResult :=
  match all_items.find? (fun it => extract_server_id it = server_id) with
  | none => .notFound
  | some queried_item =>
    let qpid := queried_item.parentReferenceId
    let qname := queried_item.fileLeafRef
    let qpname : Option String :=
      match qpid with
      | none => none
      | some p =>
        if p = "" then none
        else
          match all_items.find? (fun it => extract_server_id it = p) with
          | none => none
          | some parent_item => parent_item.fileLeafRef
    let child_folders : List ChildFolder :=
      (all_items.filter (fun it =>
        it.parentReferenceId == some server_id && it.contentType == some "Folder")).map
        (fun it => ⟨it.fileLeafRef, extract_server_id it⟩)
    if child_folders.any (fun c => c.name = none) then .attrError
    else .ok qpid qpname server_id qname
      (child_folders.insertionSort (fun a b => childNameLe a b = true))

/-! ### Dictionary-level lemmas -/

/-- Keys of the association-list dict, in order. -/
def dictKeys (m : List (String × NodeEntry)) : List String :=
  m.map Prod.fst

/-- Ids of the roots produced by the second pass, in order. -/
def rootIds (m : List (String × NodeEntry)) : List String :=
  (rootEntries m).map NodeEntry.serverID

/-- Ids of the children attached to key `k` by the second pass, in order. -/
def childIds (m : List (String × NodeEntry)) (k : String) : List String :=
  (childEntries m k).map NodeEntry.serverID

/-! ### Concrete batches used to exercise the definitions -/

/-- A root folder: etag `"A,1"`, no parent. -/
def demoA : RawItem := ⟨some "\"A,1\"", none, some "Root", some "Folder"⟩

/-- A child of `A`. -/
def demoB : RawItem := ⟨some "\"B,5\"", some "A", some "Child", some "Folder"⟩

/-- Another child of `A`, with id `Z` and lower-case name. -/
def demoC : RawItem := ⟨some "\"Z,9\"", some "A", some "beta", some "Folder"⟩

/-- A second child of `A`, named so that case-insensitive order differs
from case-sensitive order. -/
def demoD : RawItem := ⟨some "\"D,3\"", some "A", some "alpha", some "Folder"⟩

/-- An orphan: parent id `Q` absent from the batch. -/
def demoE : RawItem := ⟨some "\"E,2\"", some "Q", some "Orphan", some "Folder"⟩

/-- A document (not a folder) under `A`. -/
def demoF : RawItem := ⟨some "\"F,7\"", some "A", some "doc", some "Document"⟩

/-- A small well-formed batch: `A` is a root with folder children
`B`, `C`, `D` and document child `F`; `E` is a dangling-parent root. -/
def demoBatch : List RawItem :=
  [demoA, demoB, demoC, demoD, demoE, demoF]

/-- An item that declares itself as its own parent: the parent relation
has a cycle. -/
def cexLoop : RawItem := ⟨some "\"A,2\"", some "A", some "loop", none⟩

/-- A malformed item whose empty version tag derives the empty-string id. -/
def cexEmptyId : RawItem := ⟨some "", none, some "bee", none⟩

/-- An item whose declared parent id is the empty string. -/
def cexEmptyParent : RawItem := ⟨some "\"X,1\"", some "", some "ax", some "Folder"⟩

/-- First of two malformed items colliding on the empty-string id. -/
def dupFirst : RawItem := ⟨some "", none, some "first", none⟩

/-- Second of two malformed items colliding on the empty-string id. -/
def dupSecond : RawItem := ⟨some "", none, some "second", none⟩

/-- A folder child of `A` with no display name. -/
def cexNoName : RawItem := ⟨some "\"N,4\"", some "A", none, some "Folder"⟩

theorem keyMem_iff {m : List (String × NodeEntry)} {k : String} :
    keyMem m k = true ↔ k ∈ dictKeys m := by
  unfold keyMem dictKeys
  rw [List.any_eq_true]
  constructor
  · rintro ⟨p, hp, hpk⟩
    exact List.mem_map.mpr ⟨p, hp, by simpa using hpk⟩
  · intro h
    obtain ⟨p, hp, hpk⟩ := List.mem_map.mp h
    exact ⟨p, hp, by simpa using hpk⟩

theorem dictKeys_dictInsert (m : List (String × NodeEntry)) (k : String) (v : NodeEntry) :
    dictKeys (dictInsert m k v) =
      if k ∈ dictKeys m then dictKeys m else dictKeys m ++ [k] := by
  unfold dictInsert
  by_cases h : k ∈ dictKeys m
  · have hany : m.any (fun p => p.1 = k) = true := keyMem_iff.mpr h
    rw [if_pos hany, if_pos h]
    unfold dictKeys
    rw [List.map_map]
    refine List.map_congr_left ?_
    intro p _
    by_cases hp : p.1 = k <;> simp [hp]
  · have hany : m.any (fun p => p.1 = k) = false := by
      rw [Bool.eq_false_iff]
      intro hc
      exact h (keyMem_iff.mp hc)
    rw [if_neg (by rw [hany]; exact Bool.false_ne_true), if_neg h]
    simp [dictKeys]

theorem dictKeys_dictInsert_nodup {m : List (String × NodeEntry)} {k : String} {v : NodeEntry}
    (h : (dictKeys m).Nodup) : (dictKeys (dictInsert m k v)).Nodup := by
  rw [dictKeys_dictInsert]
  by_cases hk : k ∈ dictKeys m
  · simpa [hk]
  · simp only [hk, if_false]
    exact List.Nodup.append h (List.nodup_singleton k) (by simpa using hk)

theorem map_overwrite_of_not_mem {m : List (String × NodeEntry)} {k : String} {v : NodeEntry}
    (h : k ∉ dictKeys m) :
    m.map (fun p => if p.1 = k then (k, v) else p) = m := by
  have hc : ∀ p ∈ m, (if p.1 = k then (k, v) else p) = p := by
    intro p hp
    have hne : p.1 ≠ k := by
      intro he
      exact h (by unfold dictKeys; exact List.mem_map.mpr ⟨p, hp, he⟩)
    simp [hne]
  rw [List.map_congr_left hc]
  simp

theorem find?_overwrite {m : List (String × NodeEntry)} (hnd : (dictKeys m).Nodup)
    (k k' : String) (v : NodeEntry) (hk : k ∈ dictKeys m) :
    (m.map (fun p => if p.1 = k then (k, v) else p)).find? (fun p => p.1 = k') =
      if k' = k then some (k, v) else m.find? (fun p => p.1 = k') := by
  induction m with
  | nil => simp [dictKeys] at hk
  | cons p rest ih =>
    have hndr : (dictKeys rest).Nodup := by
      simp only [dictKeys, List.map_cons, List.nodup_cons] at hnd
      exact hnd.2
    rw [List.map_cons]
    by_cases hpk : p.1 = k
    · have hkr : k ∉ dictKeys rest := by
        simp only [dictKeys, List.map_cons, List.nodup_cons] at hnd
        rw [← hpk]; exact hnd.1
      have hrw : rest.map (fun q => if q.1 = k then (k, v) else q) = rest :=
        map_overwrite_of_not_mem hkr
      rw [if_pos hpk, hrw]
      by_cases hk' : k' = k
      · rw [if_pos hk']
        exact List.find?_cons_of_pos _ (by simp [hk'])
      · have hkk' : ¬ ((k, v).1 = k') := fun h => hk' h.symm
        have hpk' : ¬ (p.1 = k') := by rw [hpk]; exact fun h => hk' h.symm
        rw [if_neg hk', List.find?_cons_of_neg _ (by simpa using hkk'),
          List.find?_cons_of_neg _ (by simpa using hpk')]
    · have hkrest : k ∈ dictKeys rest := by
        simp only [dictKeys, List.map_cons] at hk
        rcases List.mem_cons.mp hk with h | h
        · exact absurd h.symm hpk
        · exact h
      have ihr := ih hndr hkrest
      rw [if_neg hpk]
      by_cases hpk' : p.1 = k'
      · have hk' : ¬ (k' = k) := fun h => hpk (hpk'.symm ▸ h ▸ rfl)
        rw [if_neg hk', List.find?_cons_of_pos _ (by simpa using hpk'),
          List.find?_cons_of_pos _ (by simpa using hpk')]
      · rw [List.find?_cons_of_neg _ (by simpa using hpk'), ihr]
        by_cases hk' : k' = k
        · rw [if_pos hk', if_pos hk']
        · rw [if_neg hk', if_neg hk', List.find?_cons_of_neg _ (by simpa using hpk')]

theorem dictGet_dictInsert {m : List (String × NodeEntry)} (hnd : (dictKeys m).Nodup)
    (k k' : String) (v : NodeEntry) :
    dictGet (dictInsert m k v) k' = if k' = k then some v else dictGet m k' := by
  unfold dictInsert dictGet
  by_cases hk : k ∈ dictKeys m
  · have hany : m.any (fun p => p.1 = k) = true := keyMem_iff.mpr hk
    simp only [hany, if_true]
    rw [find?_overwrite hnd k k' v hk]
    by_cases hk' : k' = k <;> simp [hk']
  · have hany : m.any (fun p => p.1 = k) = false := by
      rw [Bool.eq_false_iff]
      intro hc
      exact hk (keyMem_iff.mp hc)
    rw [if_neg (by rw [hany]; exact Bool.false_ne_true), List.find?_append]
    by_cases hk' : k' = k
    · have h1 : m.find? (fun p => p.1 = k') = none := by
        rw [List.find?_eq_none]
        intro p hp hc
        apply hk
        rw [← hk']
        exact keyMem_iff.mp (List.any_eq_true.mpr ⟨p, hp, hc⟩)
      have h2 : List.find? (fun p => p.1 = k') [(k, v)] = some (k, v) :=
        List.find?_cons_of_pos _ (by simp [hk'])
      rw [h1, h2, if_pos hk']
      rfl
    · have h2 : List.find? (fun p => p.1 = k') [(k, v)] = none := by
        rw [List.find?_cons_of_neg _ (by simpa using fun h : k = k' => hk' h.symm)]
        rfl
      rw [h2, Option.or_none, if_neg hk']

theorem dictKeys_foldl_nodup (items : List RawItem) :
    ∀ acc : List (String × NodeEntry), (dictKeys acc).Nodup →
      (dictKeys (items.foldl
          (fun m it => dictInsert m (extract_server_id it) (mkNodeEntry it)) acc)).Nodup := by
  induction items with
  | nil => intro acc h; simpa using h
  | cons it its ih =>
    intro acc h
    exact ih _ (dictKeys_dictInsert_nodup h)

theorem buildNodes_keys_nodup (items : List RawItem) :
    (dictKeys (buildNodes items)).Nodup := by
  unfold buildNodes
  exact dictKeys_foldl_nodup items [] (by simp [dictKeys])

theorem serverID_eq_key_foldl (items : List RawItem) :
    ∀ acc : List (String × NodeEntry), (∀ p ∈ acc, p.2.serverID = p.1) →
      ∀ p ∈ items.foldl
          (fun m it => dictInsert m (extract_server_id it) (mkNodeEntry it)) acc,
        p.2.serverID = p.1 := by
  induction items with
  | nil => intro acc h; simpa using h
  | cons it its ih =>
    intro acc h
    refine ih _ ?_
    intro p hp
    unfold dictInsert at hp
    by_cases hany : acc.any (fun q => q.1 = extract_server_id it) = true
    · simp only [hany, if_true, List.mem_map] at hp
      obtain ⟨q, hq, hqp⟩ := hp
      by_cases hqk : q.1 = extract_server_id it
      · simp only [hqk, if_true] at hqp
        rw [← hqp]
        rfl
      · simp only [hqk, if_false] at hqp
        exact hqp ▸ h q hq
    · simp only [hany, Bool.false_eq_true, if_false, List.mem_append] at hp
      rcases hp with hp | hp
      · exact h p hp
      · simp only [List.mem_singleton] at hp
        rw [hp]
        rfl

theorem buildNodes_serverID_eq_key (items : List RawItem) :
    ∀ p ∈ buildNodes items, p.2.serverID = p.1 := by
  unfold buildNodes
  exact serverID_eq_key_foldl items [] (by simp)

/-! ### The first pass: key order and entry values -/

theorem dictKeys_foldl (items : List RawItem) :
    ∀ acc : List (String × NodeEntry),
      dictKeys (items.foldl
          (fun m it => dictInsert m (extract_server_id it) (mkNodeEntry it)) acc) =
        (items.map extract_server_id).foldl
          (fun ks k => if k ∈ ks then ks else ks ++ [k]) (dictKeys acc) := by
  induction items with
  | nil => intro acc; rfl
  | cons it its ih =>
    intro acc
    rw [List.foldl_cons, ih, List.map_cons, List.foldl_cons, dictKeys_dictInsert]

theorem buildNodes_keys (items : List RawItem) :
    dictKeys (buildNodes items) = firstOccurrences (items.map extract_server_id) := by
  unfold buildNodes firstOccurrences
  simpa using dictKeys_foldl items []

theorem mem_foldl_insK (l : List String) :
    ∀ (acc : List String) (a : String),
      a ∈ l.foldl (fun ks k => if k ∈ ks then ks else ks ++ [k]) acc ↔ a ∈ acc ∨ a ∈ l := by
  induction l with
  | nil => intro acc a; simp
  | cons b l ih =>
    intro acc a
    rw [List.foldl_cons, ih]
    by_cases hb : b ∈ acc
    · simp only [hb, if_true, List.mem_cons]
      constructor
      · intro h; tauto
      · rintro (h | rfl | h) <;> tauto
    · simp only [hb, if_false, List.mem_append, List.mem_singleton, List.mem_cons]
      tauto

theorem mem_firstOccurrences {l : List String} {a : String} :
    a ∈ firstOccurrences l ↔ a ∈ l := by
  unfold firstOccurrences
  rw [mem_foldl_insK]
  simp

theorem foldl_insK_of_nodup (l : List String) :
    ∀ acc : List String, (acc ++ l).Nodup →
      l.foldl (fun ks k => if k ∈ ks then ks else ks ++ [k]) acc = acc ++ l := by
  induction l with
  | nil => intro acc _; simp
  | cons b l ih =>
    intro acc hn
    have hb : b ∉ acc := by
      rcases List.nodup_append.mp hn with ⟨_, _, hdisj⟩
      intro hmem
      exact hdisj hmem (List.mem_cons_self b l)
    have hn' : ((acc ++ [b]) ++ l).Nodup := by
      rwa [List.append_assoc, List.singleton_append]
    rw [List.foldl_cons, if_neg hb, ih (acc ++ [b]) hn', List.append_assoc,
      List.singleton_append]

theorem firstOccurrences_of_nodup {l : List String} (h : l.Nodup) :
    firstOccurrences l = l := by
  unfold firstOccurrences
  simpa using foldl_insK_of_nodup l [] (by simpa using h)

theorem foldl_nodup_eq_append (items : List RawItem) :
    ∀ acc : List (String × NodeEntry),
      (dictKeys acc ++ items.map extract_server_id).Nodup →
      items.foldl (fun m it => dictInsert m (extract_server_id it) (mkNodeEntry it)) acc =
        acc ++ items.map (fun it => (extract_server_id it, mkNodeEntry it)) := by
  induction items with
  | nil => intro acc _; simp
  | cons it its ih =>
    intro acc hn
    have hnotin : extract_server_id it ∉ dictKeys acc := by
      rcases List.nodup_append.mp hn with ⟨_, _, hdisj⟩
      intro hmem
      exact hdisj hmem (by simp)
    have hany : acc.any (fun p => p.1 = extract_server_id it) = false := by
      rw [Bool.eq_false_iff]
      intro hc
      exact hnotin (keyMem_iff.mp hc)
    have hins : dictInsert acc (extract_server_id it) (mkNodeEntry it) =
        acc ++ [(extract_server_id it, mkNodeEntry it)] := by
      unfold dictInsert
      rw [if_neg (by rw [hany]; exact Bool.false_ne_true)]
    have hn' : (dictKeys (acc ++ [(extract_server_id it, mkNodeEntry it)]) ++
        its.map extract_server_id).Nodup := by
      unfold dictKeys
      rw [List.map_append]
      simp only [List.map_cons, List.map_nil]
      rw [List.append_assoc, List.singleton_append]
      simpa [dictKeys] using hn
    rw [List.foldl_cons, hins, ih _ hn', List.append_assoc, List.singleton_append,
      List.map_cons]

theorem buildNodes_of_nodup {items : List RawItem}
    (hu : (items.map extract_server_id).Nodup) :
    buildNodes items = items.map (fun it => (extract_server_id it, mkNodeEntry it)) := by
  unfold buildNodes
  simpa using foldl_nodup_eq_append items [] (by simpa [dictKeys] using hu)

theorem dictGet_foldl (items : List RawItem) :
    ∀ acc : List (String × NodeEntry), (dictKeys acc).Nodup → ∀ k : String,
      dictGet (items.foldl
          (fun m it => dictInsert m (extract_server_id it) (mkNodeEntry it)) acc) k =
        ((items.reverse.find? (fun it => extract_server_id it = k)).map mkNodeEntry).or
          (dictGet acc k) := by
  induction items with
  | nil => intro acc _ k; simp
  | cons it its ih =>
    intro acc hnd k
    rw [List.foldl_cons, ih _ (dictKeys_dictInsert_nodup hnd) k,
      dictGet_dictInsert hnd (extract_server_id it) k (mkNodeEntry it),
      List.reverse_cons, List.find?_append]
    cases hfound : its.reverse.find? (fun z => extract_server_id z = k) with
    | some z => simp [Option.or]
    | none =>
      rw [Option.none_or, Option.map_none', Option.none_or]
      by_cases hit : extract_server_id it = k
      · rw [List.find?_cons_of_pos _ (by simpa using hit), Option.map_some',
          if_pos hit.symm]
        rfl
      · rw [List.find?_cons_of_neg _ (by simpa using hit), List.find?_nil,
          Option.map_none', Option.none_or, if_neg (fun h => hit h.symm)]

/-! ### Lookup lemmas -/

theorem dictGet_eq_none_iff {m : List (String × NodeEntry)} {k : String} :
    dictGet m k = none ↔ k ∉ dictKeys m := by
  unfold dictGet
  rw [Option.map_eq_none', List.find?_eq_none]
  constructor
  · intro h hk
    obtain ⟨p, hp, hpk⟩ := List.mem_map.mp hk
    exact h p hp (by simpa using hpk)
  · intro h p hp hpk
    exact h (List.mem_map.mpr ⟨p, hp, by simpa using hpk⟩)

theorem dictGet_mem {m : List (String × NodeEntry)} {k : String} {e : NodeEntry}
    (h : dictGet m k = some e) : (k, e) ∈ m := by
  unfold dictGet at h
  obtain ⟨q, hq, hqe⟩ := Option.map_eq_some'.mp h
  have hqk : q.1 = k := by simpa using List.find?_some hq
  have := List.mem_of_find?_eq_some hq
  cases q with
  | mk a b =>
    simp only at hqk hqe
    rw [← hqk, ← hqe]
    exact this

theorem mem_dictGet {m : List (String × NodeEntry)} (hnd : (dictKeys m).Nodup)
    {k : String} {e : NodeEntry} (h : (k, e) ∈ m) : dictGet m k = some e := by
  induction m with
  | nil => cases h
  | cons p rest ih =>
    have hndr : (dictKeys rest).Nodup := by
      simp only [dictKeys, List.map_cons, List.nodup_cons] at hnd
      exact hnd.2
    rcases List.mem_cons.mp h with h | h
    · unfold dictGet
      rw [List.find?_cons_of_pos _ (by simp [← h])]
      simp [← h]
    · have hkr : k ∈ dictKeys rest :=
        List.mem_map.mpr ⟨(k, e), h, rfl⟩
      have hpk : ¬ (p.1 = k) := by
        simp only [dictKeys, List.map_cons, List.nodup_cons] at hnd
        intro hc
        exact hnd.1 (hc ▸ hkr)
      unfold dictGet
      rw [List.find?_cons_of_neg _ (by simpa using hpk)]
      exact ih hndr h

theorem dictGet_isSome_of_mem {m : List (String × NodeEntry)} {k : String}
    (h : k ∈ dictKeys m) : ∃ e, dictGet m k = some e := by
  cases hg : dictGet m k with
  | none => exact absurd h (dictGet_eq_none_iff.mp hg)
  | some e => exact ⟨e, rfl⟩

/-! ### The second pass: parent relation and correspondences -/

theorem parentStep_mem {m : List (String × NodeEntry)} {k p : String}
    (h : parentStep m k = some p) : p ∈ dictKeys m := by
  cases hg : dictGet m k with
  | none => simp only [parentStep, hg] at h; cases h
  | some e =>
    simp only [parentStep, hg] at h
    cases hp : e.parentID with
    | none => simp only [hp] at h; cases h
    | some q =>
      simp only [hp] at h
      by_cases hq : q = ""
      · rw [if_pos hq] at h; cases h
      · rw [if_neg hq] at h
        by_cases hk : keyMem m q = true
        · rw [if_pos hk] at h
          cases h
          exact keyMem_iff.mp hk
        · rw [if_neg hk] at h; cases h

theorem isChildCond_false_iff {m : List (String × NodeEntry)} {k : String} {e : NodeEntry}
    (h : dictGet m k = some e) : isChildCond m e = false ↔ parentStep m k = none := by
  simp only [parentStep, h, isChildCond]
  cases hp : e.parentID with
  | none => simp [pyTruthy]
  | some q =>
    simp only [pyTruthy, Option.getD_some]
    by_cases hq : q = ""
    · simp [hq]
    · rw [if_neg hq]
      by_cases hk : keyMem m q = true
      · simp [hq, hk]
      · simp [hq, hk]

theorem parentStep_eq_some_iff {m : List (String × NodeEntry)} {k : String} {e : NodeEntry}
    (h : dictGet m k = some e) {q : String} :
    parentStep m k = some q ↔ (isChildCond m e = true ∧ e.parentID = some q) := by
  simp only [parentStep, h, isChildCond]
  cases hp : e.parentID with
  | none => simp [pyTruthy]
  | some p =>
    simp only [pyTruthy, Option.getD_some]
    by_cases hpe : p = ""
    · simp [hpe]
    · rw [if_neg hpe]
      by_cases hk : keyMem m p = true
      · rw [if_pos hk]
        simp only [hk, Bool.and_true]
        constructor
        · rintro h'
          cases h'
          exact ⟨by simp [hpe], rfl⟩
        · rintro ⟨_, h'⟩
          cases h'
          rfl
      · rw [if_neg hk]
        simp [hk]

theorem mem_rootEntries {m : List (String × NodeEntry)} (hnd : (dictKeys m).Nodup)
    (hsid : ∀ p ∈ m, p.2.serverID = p.1) {e : NodeEntry} :
    e ∈ rootEntries m ↔ dictGet m e.serverID = some e ∧ parentStep m e.serverID = none := by
  unfold rootEntries
  rw [List.mem_map]
  constructor
  · rintro ⟨p, hp, rfl⟩
    obtain ⟨hpm, hcond⟩ := List.mem_filter.mp hp
    have hkey := hsid p hpm
    have hget : dictGet m p.2.serverID = some p.2 := by
      rw [hkey]
      exact mem_dictGet hnd (by rw [← Prod.mk.eta (p := p)] at hpm; exact hpm)
    refine ⟨hget, (isChildCond_false_iff hget).mp ?_⟩
    simpa using hcond
  · rintro ⟨hget, hstep⟩
    have hm := dictGet_mem hget
    refine ⟨(e.serverID, e), List.mem_filter.mpr ⟨hm, ?_⟩, rfl⟩
    have := (isChildCond_false_iff hget).mpr hstep
    simpa using this

theorem mem_childEntries {m : List (String × NodeEntry)} (hnd : (dictKeys m).Nodup)
    (hsid : ∀ p ∈ m, p.2.serverID = p.1) {k : String} {e : NodeEntry} :
    e ∈ childEntries m k ↔ dictGet m e.serverID = some e ∧ parentStep m e.serverID = some k := by
  unfold childEntries
  rw [List.mem_map]
  constructor
  · rintro ⟨p, hp, rfl⟩
    obtain ⟨hpm, hcond⟩ := List.mem_filter.mp hp
    rw [Bool.and_eq_true] at hcond
    obtain ⟨hc, hpk⟩ := hcond
    have hkey := hsid p hpm
    have hget : dictGet m p.2.serverID = some p.2 := by
      rw [hkey]
      exact mem_dictGet hnd (by rw [← Prod.mk.eta (p := p)] at hpm; exact hpm)
    refine ⟨hget, (parentStep_eq_some_iff hget).mpr ⟨hc, ?_⟩⟩
    have htr : pyTruthy p.2.parentID = true := by
      unfold isChildCond at hc
      rw [Bool.and_eq_true] at hc
      exact hc.1
    cases hpid : p.2.parentID with
    | none => rw [hpid] at htr; cases htr
    | some q =>
      rw [hpid] at hpk
      simp only [Option.getD_some] at hpk
      rw [show q = k from by simpa using hpk]
  · rintro ⟨hget, hstep⟩
    have hm := dictGet_mem hget
    obtain ⟨hc, hpid⟩ := (parentStep_eq_some_iff hget).mp hstep
    refine ⟨(e.serverID, e), List.mem_filter.mpr ⟨hm, ?_⟩, rfl⟩
    rw [Bool.and_eq_true]
    exact ⟨hc, by simp [hpid]⟩

theorem mem_rootIds {m : List (String × NodeEntry)} (hnd : (dictKeys m).Nodup)
    (hsid : ∀ p ∈ m, p.2.serverID = p.1) {k : String} :
    k ∈ rootIds m ↔ k ∈ dictKeys m ∧ parentStep m k = none := by
  unfold rootIds
  rw [List.mem_map]
  constructor
  · rintro ⟨e, he, rfl⟩
    obtain ⟨hget, hstep⟩ := (mem_rootEntries hnd hsid).mp he
    exact ⟨List.mem_map.mpr ⟨_, dictGet_mem hget, rfl⟩, hstep⟩
  · rintro ⟨hk, hstep⟩
    obtain ⟨e, hget⟩ := dictGet_isSome_of_mem hk
    have hsk : e.serverID = k := hsid (k, e) (dictGet_mem hget)
    refine ⟨e, (mem_rootEntries hnd hsid).mpr ⟨by rwa [hsk], by rwa [hsk]⟩, hsk⟩

theorem mem_childIds {m : List (String × NodeEntry)} (hnd : (dictKeys m).Nodup)
    (hsid : ∀ p ∈ m, p.2.serverID = p.1) {k c : String} :
    c ∈ childIds m k ↔ c ∈ dictKeys m ∧ parentStep m c = some k := by
  unfold childIds
  rw [List.mem_map]
  constructor
  · rintro ⟨e, he, rfl⟩
    obtain ⟨hget, hstep⟩ := (mem_childEntries hnd hsid).mp he
    exact ⟨List.mem_map.mpr ⟨_, dictGet_mem hget, rfl⟩, hstep⟩
  · rintro ⟨hk, hstep⟩
    obtain ⟨e, hget⟩ := dictGet_isSome_of_mem hk
    have hsk : e.serverID = c := hsid (c, e) (dictGet_mem hget)
    refine ⟨e, (mem_childEntries hnd hsid).mpr ⟨by rwa [hsk], by rwa [hsk]⟩, hsk⟩

/-! ### Chasing the parent chain -/

theorem chase_none (m : List (String × NodeEntry)) : ∀ j, chase m j none = none := by
  intro j
  induction j with
  | zero => rfl
  | succ j ih => rw [chase, ih]; rfl

theorem chase_add (m : List (String × NodeEntry)) (a b : Nat) (o : Option String) :
    chase m (a + b) o = chase m a (chase m b o) := by
  induction a with
  | zero => rw [Nat.zero_add]; rfl
  | succ a ih => rw [Nat.succ_add, chase, ih, chase]

theorem chase_some_mem {m : List (String × NodeEntry)} :
    ∀ {j : Nat} {d r : String}, d ∈ dictKeys m → chase m j (some d) = some r →
      r ∈ dictKeys m := by
  intro j
  induction j with
  | zero => intro d r hd h; cases h; exact hd
  | succ j ih =>
    intro d r hd h
    rw [chase] at h
    cases hc : chase m j (some d) with
    | none => rw [hc] at h; cases h
    | some w =>
      rw [hc] at h
      exact parentStep_mem h

theorem chase_periodic {m : List (String × NodeEntry)} {k : String} {j : Nat}
    (h : chase m j (some k) = some k) : ∀ q, chase m (q * j) (some k) = some k := by
  intro q
  induction q with
  | zero => rw [Nat.zero_mul]; rfl
  | succ q ih => rw [Nat.succ_mul, chase_add, h, ih]

theorem no_cycle {m : List (String × NodeEntry)} {k : String} {n j : Nat}
    (hn : chase m n (some k) = none) (hj : 1 ≤ j) : chase m j (some k) ≠ some k := by
  intro h
  have hq := chase_periodic h n
  have hle : n ≤ n * j := Nat.le_mul_of_pos_right n hj
  have heq : n * j = (n * j - n) + n := by omega
  rw [heq, chase_add, hn, chase_none] at hq
  cases hq

theorem chase_step_unique_aux {m : List (String × NodeEntry)} {d k : String} {a b n : Nat}
    (hn : chase m n (some k) = none) (ha : chase m a (some d) = some k)
    (hb : chase m b (some d) = some k) (hab : a ≤ b) : a = b := by
  have heq : b = (b - a) + a := by omega
  rw [heq, chase_add, ha] at hb
  by_cases hz : b - a = 0
  · omega
  · exact absurd hb (no_cycle hn (by omega))

theorem chase_step_unique {m : List (String × NodeEntry)} {d k : String} {a b n : Nat}
    (hn : chase m n (some k) = none) (ha : chase m a (some d) = some k)
    (hb : chase m b (some d) = some k) : a = b := by
  rcases Nat.le_total a b with h | h
  · exact chase_step_unique_aux hn ha hb h
  · exact (chase_step_unique_aux hn hb ha h).symm

theorem chase_root {m : List (String × NodeEntry)} {r : String} {s : Nat}
    (hr : parentStep m r = none) (hs : 1 ≤ s) : chase m s (some r) = none := by
  have heq : s = (s - 1) + 1 := by omega
  have h1 : chase m 1 (some r) = none := by
    rw [chase]
    simp only [chase, pstep, hr]
  rw [heq, chase_add, h1, chase_none]

theorem chase_exists_root {m : List (String × NodeEntry)} :
    ∀ {j : Nat} {d : String}, chase m j (some d) = none →
      ∃ t r, t < j ∧ chase m t (some d) = some r ∧ parentStep m r = none := by
  intro j
  induction j with
  | zero => intro d h; cases h
  | succ j ih =>
    intro d h
    rw [chase] at h
    cases hc : chase m j (some d) with
    | none =>
      obtain ⟨t, r, ht, hcr, hr⟩ := ih hc
      exact ⟨t, r, Nat.lt_succ_of_lt ht, hcr, hr⟩
    | some w =>
      rw [hc] at h
      exact ⟨j, w, Nat.lt_succ_self j, hc, h⟩

theorem chase_lt_of_acyc {m : List (String × NodeEntry)} {n : Nat}
    (hacyc : ∀ k ∈ dictKeys m, chase m n (some k) = none) {d r : String} {j : Nat}
    (hd : d ∈ dictKeys m) (h : chase m j (some d) = some r) : j < n := by
  by_contra hge
  have heq : j = (j - n) + n := by omega
  rw [heq, chase_add, hacyc d hd, chase_none] at h
  cases h

/-! ### Preorder traversal and materialization -/

theorem preorderNodes_eq_flatMap (l : List FolderNode) :
    preorderNodes l = l.flatMap (fun t => preorderNodes [t]) := by
  induction l with
  | nil => simp [preorderNodes]
  | cons h rest ih =>
    cases h with
    | mk n s p r c =>
      rw [List.flatMap_cons, preorderNodes, preorderNodes, ih]
      simp [preorderNodes]

theorem forestIds_eq_flatMap (l : List FolderNode) :
    forestIds l = l.flatMap (fun t => forestIds [t]) := by
  unfold forestIds
  rw [preorderNodes_eq_flatMap, List.map_flatMap]

theorem forestIds_singleton (n : Option String) (s : String) (p : Option String)
    (r : RawItem) (c : List FolderNode) :
    forestIds [FolderNode.mk n s p r c] = s :: forestIds c := by
  simp [forestIds, preorderNodes, FolderNode.serverID]

theorem materializeNode_serverID (m : List (String × NodeEntry)) (fuel : Nat) (e : NodeEntry) :
    (materializeNode m fuel e).serverID = e.serverID := by
  cases fuel <;> rfl

theorem forestIds_mat_zero (m : List (String × NodeEntry)) (e : NodeEntry) :
    forestIds [materializeNode m 0 e] = [e.serverID] := by
  simp [materializeNode, forestIds, preorderNodes, FolderNode.serverID]

theorem forestIds_mat_succ (m : List (String × NodeEntry)) (fuel : Nat) (e : NodeEntry) :
    forestIds [materializeNode m (fuel + 1) e] =
      e.serverID ::
        (childEntries m e.serverID).flatMap (fun c => forestIds [materializeNode m fuel c]) := by
  rw [materializeNode, forestIds_singleton, forestIds_eq_flatMap, List.flatMap_map]

theorem childIds_nodup {m : List (String × NodeEntry)} (hnd : (dictKeys m).Nodup)
    (hsid : ∀ p ∈ m, p.2.serverID = p.1) (k : String) : (childIds m k).Nodup := by
  have heq : childIds m k =
      (m.filter (fun p => isChildCond m p.2 && p.2.parentID.getD "" = k)).map Prod.fst := by
    unfold childIds childEntries
    rw [List.map_map]
    refine List.map_congr_left ?_
    intro p hp
    exact hsid p (List.mem_of_mem_filter hp)
  rw [heq]
  exact ((List.filter_sublist m).map Prod.fst).nodup hnd

theorem rootIds_nodup {m : List (String × NodeEntry)} (hnd : (dictKeys m).Nodup)
    (hsid : ∀ p ∈ m, p.2.serverID = p.1) : (rootIds m).Nodup := by
  have heq : rootIds m = (m.filter (fun p => ! isChildCond m p.2)).map Prod.fst := by
    unfold rootIds rootEntries
    rw [List.map_map]
    refine List.map_congr_left ?_
    intro p hp
    exact hsid p (List.mem_of_mem_filter hp)
  rw [heq]
  exact ((List.filter_sublist m).map Prod.fst).nodup hnd

/-! ### The subtree below one entry: exactly the keys whose parent chain
passes through it, each once -/

theorem subtree_ids_spec {m : List (String × NodeEntry)} {n : Nat}
    (hnd : (dictKeys m).Nodup) (hsid : ∀ p ∈ m, p.2.serverID = p.1)
    (hacyc : ∀ k ∈ dictKeys m, chase m n (some k) = none) :
    ∀ (fuel : Nat) (k : String) (e : NodeEntry), dictGet m k = some e →
      (∀ d ∈ dictKeys m, ∀ j, chase m j (some d) = some k → j < fuel) →
      ((∀ d, d ∈ forestIds [materializeNode m fuel e] ↔
          d ∈ dictKeys m ∧ ∃ j, chase m j (some d) = some k)
        ∧ (forestIds [materializeNode m fuel e]).Nodup) := by
  intro fuel
  induction fuel with
  | zero =>
    intro k e hget hbud
    have hk : k ∈ dictKeys m := List.mem_map.mpr ⟨_, dictGet_mem hget, rfl⟩
    exact absurd (hbud k hk 0 rfl) (by omega)
  | succ fuel ih =>
    intro k e hget hbud
    have hk : k ∈ dictKeys m := List.mem_map.mpr ⟨_, dictGet_mem hget, rfl⟩
    have hesid : e.serverID = k := hsid (k, e) (dictGet_mem hget)
    have hchild : ∀ c ∈ childEntries m k,
        dictGet m c.serverID = some c ∧ parentStep m c.serverID = some k := by
      intro c hc
      exact (mem_childEntries hnd hsid).mp hc
    have hbudc : ∀ c ∈ childEntries m k,
        ∀ d ∈ dictKeys m, ∀ j, chase m j (some d) = some c.serverID → j < fuel := by
      intro c hc d hd j hj
      have hstep : chase m (j + 1) (some d) = some k := by
        rw [chase, hj]
        exact (hchild c hc).2
      have := hbud d hd (j + 1) hstep
      omega
    have hihc := fun c hc => ih c.serverID c ((hchild c hc).1) (hbudc c hc)
    rw [forestIds_mat_succ, hesid]
    constructor
    · intro d
      rw [List.mem_cons, List.mem_flatMap]
      constructor
      · rintro (rfl | ⟨c, hcC, hdc⟩)
        · exact ⟨hk, 0, rfl⟩
        · obtain ⟨hd, j, hj⟩ := ((hihc c hcC).1 d).mp hdc
          refine ⟨hd, j + 1, ?_⟩
          rw [chase, hj]
          exact (hchild c hcC).2
      · rintro ⟨hd, j, hj⟩
        by_cases hdk : d = k
        · exact Or.inl hdk
        · right
          cases j with
          | zero =>
            rw [chase] at hj
            exact absurd (by injection hj) hdk
          | succ j =>
            rw [chase] at hj
            cases hc : chase m j (some d) with
            | none => rw [hc] at hj; cases hj
            | some w =>
              rw [hc] at hj
              have hwmem : w ∈ dictKeys m := chase_some_mem hd hc
              obtain ⟨ew, hgetw⟩ := dictGet_isSome_of_mem hwmem
              have hewsid : ew.serverID = w := hsid (w, ew) (dictGet_mem hgetw)
              have hewC : ew ∈ childEntries m k := by
                refine (mem_childEntries hnd hsid).mpr ⟨by rwa [hewsid], ?_⟩
                rw [hewsid]
                exact hj
              refine ⟨ew, hewC, ((hihc ew hewC).1 d).mpr ⟨hd, j, ?_⟩⟩
              rw [hewsid]
              exact hc
    · rw [List.nodup_cons]
      constructor
      · intro hkin
        obtain ⟨c, hcC, hkc⟩ := List.mem_flatMap.mp hkin
        obtain ⟨_, j, hj⟩ := ((hihc c hcC).1 k).mp hkc
        have hloop : chase m (j + 1) (some k) = some k := by
          rw [chase, hj]
          exact (hchild c hcC).2
        exact no_cycle (hacyc k hk) (by omega) hloop
      · rw [List.nodup_flatMap]
        refine ⟨fun c hc => (hihc c hc).2, ?_⟩
        have hpw : (childEntries m k).Pairwise
            (fun a b => a.serverID ≠ b.serverID) := by
          have hcids : (childIds m k).Nodup := childIds_nodup hnd hsid k
          unfold childIds at hcids
          exact List.pairwise_map.mp hcids
        refine hpw.imp_of_mem ?_
        intro a b ha hb hne
        intro d hda hdb
        obtain ⟨hd, ja, hja⟩ := ((hihc a ha).1 d).mp hda
        obtain ⟨_, jb, hjb⟩ := ((hihc b hb).1 d).mp hdb
        have hka : chase m (ja + 1) (some d) = some k := by
          rw [chase, hja]
          exact (hchild a ha).2
        have hkb : chase m (jb + 1) (some d) = some k := by
          rw [chase, hjb]
          exact (hchild b hb).2
        have hj : ja + 1 = jb + 1 := chase_step_unique (hacyc k hk) hka hkb
        have hjj : ja = jb := by omega
        rw [hjj, hjb] at hja
        exact hne (by injection hja with h; exact h.symm)

/-! ### The whole forest -/

theorem perm_of_nodup_mem_iff {l₁ l₂ : List String} (h1 : l₁.Nodup) (h2 : l₂.Nodup)
    (hm : ∀ a, a ∈ l₁ ↔ a ∈ l₂) : l₁.Perm l₂ :=
  List.perm_of_nodup_nodup_toFinset_eq h1 h2
    (Finset.ext fun a => by rw [List.mem_toFinset, List.mem_toFinset]; exact hm a)

theorem build_eq_flatMap (items : List RawItem) :
    forestIds (build_folder_hierarchy items) =
      (rootEntries (buildNodes items)).flatMap
        (fun e =>
          forestIds [materializeNode (buildNodes items) (buildNodes items).length e]) := by
  unfold build_folder_hierarchy
  rw [forestIds_eq_flatMap, List.flatMap_map]

theorem roots_chain_unique_aux {m : List (String × NodeEntry)} {d r₁ r₂ : String}
    {j₁ j₂ : Nat} (h₁ : chase m j₁ (some d) = some r₁) (hr₁ : parentStep m r₁ = none)
    (h₂ : chase m j₂ (some d) = some r₂) (hle : j₁ ≤ j₂) : r₁ = r₂ := by
  have heq : j₂ = (j₂ - j₁) + j₁ := by omega
  rw [heq, chase_add, h₁] at h₂
  by_cases hz : j₂ - j₁ = 0
  · rw [hz] at h₂
    exact Option.some.inj h₂
  · rw [chase_root hr₁ (by omega)] at h₂
    cases h₂

theorem build_forest_mem_nodup (items : List RawItem)
    (hacyc : ∀ k ∈ dictKeys (buildNodes items),
      chase (buildNodes items) (buildNodes items).length (some k) = none) :
    (∀ d, d ∈ forestIds (build_folder_hierarchy items) ↔ d ∈ dictKeys (buildNodes items))
      ∧ (forestIds (build_folder_hierarchy items)).Nodup := by
  have hnd := buildNodes_keys_nodup items
  have hsid := buildNodes_serverID_eq_key items
  set m := buildNodes items with hm
  rw [build_eq_flatMap]
  have hroot : ∀ r ∈ rootEntries m,
      dictGet m r.serverID = some r ∧ parentStep m r.serverID = none :=
    fun r hr => (mem_rootEntries hnd hsid).mp hr
  have hbud : ∀ r ∈ rootEntries m, ∀ d ∈ dictKeys m, ∀ j,
      chase m j (some d) = some r.serverID → j < m.length :=
    fun r _ d hd j hj => chase_lt_of_acyc hacyc hd hj
  have hsub := fun r hr =>
    subtree_ids_spec hnd hsid hacyc m.length r.serverID r (hroot r hr).1 (hbud r hr)
  constructor
  · intro d
    rw [List.mem_flatMap]
    constructor
    · rintro ⟨r, hr, hdr⟩
      exact (((hsub r hr).1 d).mp hdr).1
    · intro hd
      obtain ⟨t, r0, _, hct, hr0⟩ := chase_exists_root (hacyc d hd)
      have hr0mem : r0 ∈ dictKeys m := chase_some_mem hd hct
      obtain ⟨er, hgetr⟩ := dictGet_isSome_of_mem hr0mem
      have hersid : er.serverID = r0 := hsid (r0, er) (dictGet_mem hgetr)
      have herR : er ∈ rootEntries m :=
        (mem_rootEntries hnd hsid).mpr ⟨by rwa [hersid], by rwa [hersid]⟩
      refine ⟨er, herR, ((hsub er herR).1 d).mpr ⟨hd, t, ?_⟩⟩
      rw [hersid]
      exact hct
  · rw [List.nodup_flatMap]
    refine ⟨fun r hr => (hsub r hr).2, ?_⟩
    have hpw : (rootEntries m).Pairwise (fun a b => a.serverID ≠ b.serverID) := by
      have hrids : (rootIds m).Nodup := rootIds_nodup hnd hsid
      unfold rootIds at hrids
      exact List.pairwise_map.mp hrids
    refine hpw.imp_of_mem ?_
    intro a b ha hb hne d hda hdb
    obtain ⟨hd, ja, hja⟩ := ((hsub a ha).1 d).mp hda
    obtain ⟨_, jb, hjb⟩ := ((hsub b hb).1 d).mp hdb
    rcases Nat.le_total ja jb with hle | hle
    · exact hne (roots_chain_unique_aux hja (hroot a ha).2 hjb hle)
    · exact hne ((roots_chain_unique_aux hjb (hroot b hb).2 hja hle).symm)

theorem flat_partition_perm (items : List RawItem) :
    (rootIds (buildNodes items) ++
        (dictKeys (buildNodes items)).flatMap (fun k => childIds (buildNodes items) k)).Perm
      (dictKeys (buildNodes items)) := by
  have hnd := buildNodes_keys_nodup items
  have hsid := buildNodes_serverID_eq_key items
  set m := buildNodes items with hm
  have hmemiff : ∀ d, d ∈ rootIds m ++ (dictKeys m).flatMap (fun k => childIds m k) ↔
      d ∈ dictKeys m := by
    intro d
    rw [List.mem_append, List.mem_flatMap]
    constructor
    · rintro (h | ⟨k, _, hdk⟩)
      · exact ((mem_rootIds hnd hsid).mp h).1
      · exact ((mem_childIds hnd hsid).mp hdk).1
    · intro hd
      cases hps : parentStep m d with
      | none => exact Or.inl ((mem_rootIds hnd hsid).mpr ⟨hd, hps⟩)
      | some k =>
        exact Or.inr ⟨k, parentStep_mem hps, (mem_childIds hnd hsid).mpr ⟨hd, hps⟩⟩
  have hndl : (rootIds m ++ (dictKeys m).flatMap (fun k => childIds m k)).Nodup := by
    rw [List.nodup_append]
    refine ⟨rootIds_nodup hnd hsid, ?_, ?_⟩
    · rw [List.nodup_flatMap]
      refine ⟨fun k _ => childIds_nodup hnd hsid k, ?_⟩
      refine hnd.imp_of_mem ?_
      intro k₁ k₂ _ _ hne d hd1 hd2
      have h1 := ((mem_childIds hnd hsid).mp hd1).2
      have h2 := ((mem_childIds hnd hsid).mp hd2).2
      rw [h1] at h2
      exact hne (Option.some.inj h2)
    · intro d hdr hdc
      obtain ⟨k, _, hdk⟩ := List.mem_flatMap.mp hdc
      have h1 := ((mem_rootIds hnd hsid).mp hdr).2
      have h2 := ((mem_childIds hnd hsid).mp hdk).2
      rw [h1] at h2
      cases h2
  exact perm_of_nodup_mem_iff hndl hnd hmemiff

/-! ### The recursive lookup -/

theorem find_eq_preorder_find? (forest : List FolderNode) (t : String) :
    find_folder_by_id_in_hierarchy forest t =
      (preorderNodes forest).find? (fun nd => nd.serverID = t) := by
  induction forest, t using find_folder_by_id_in_hierarchy.induct with
  | case1 t =>
    rw [find_folder_by_id_in_hierarchy, preorderNodes]
    rfl
  | case2 n p r c rest t =>
    rw [find_folder_by_id_in_hierarchy, if_pos rfl, preorderNodes,
      List.find?_cons_of_pos _ (by simp [FolderNode.serverID])]
  | case3 n s p r c rest t hst res hres ihc =>
    rw [find_folder_by_id_in_hierarchy, if_neg hst, preorderNodes,
      List.find?_cons_of_neg _ (by simp [FolderNode.serverID, hst]),
      List.find?_append, ← ihc, hres]
    rfl
  | case4 n s p r c rest t hst hres ihc ihr =>
    rw [find_folder_by_id_in_hierarchy, if_neg hst, preorderNodes,
      List.find?_cons_of_neg _ (by simp [FolderNode.serverID, hst]),
      List.find?_append, ← ihc, hres, Option.none_or]
    exact ihr

theorem find_eq_none_iff (forest : List FolderNode) (t : String) :
    find_folder_by_id_in_hierarchy forest t = none ↔ t ∉ forestIds forest := by
  rw [find_eq_preorder_find?, List.find?_eq_none]
  unfold forestIds
  constructor
  · intro h ht
    obtain ⟨nd, hnd, hsid⟩ := List.mem_map.mp ht
    exact h nd hnd (by simpa using hsid)
  · intro h nd hnd hsid
    exact h (List.mem_map.mpr ⟨nd, hnd, by simpa using hsid⟩)

theorem find_some_spec {forest : List FolderNode} {t : String} {nd : FolderNode}
    (h : find_folder_by_id_in_hierarchy forest t = some nd) :
    nd ∈ preorderNodes forest ∧ nd.serverID = t := by
  rw [find_eq_preorder_find?] at h
  exact ⟨List.mem_of_find?_eq_some h, by simpa using List.find?_some h⟩

theorem find_isSome_of_mem {forest : List FolderNode} {t : String}
    (h : t ∈ forestIds forest) :
    ∃ nd, find_folder_by_id_in_hierarchy forest t = some nd := by
  cases hf : find_folder_by_id_in_hierarchy forest t with
  | none => exact absurd h ((find_eq_none_iff forest t).mp hf)
  | some nd => exact ⟨nd, rfl⟩

/-! ### Nodes of the materialized forest carry their dict entry's fields -/

theorem mat_preorder_entries {m : List (String × NodeEntry)} (hnd : (dictKeys m).Nodup)
    (hsid : ∀ p ∈ m, p.2.serverID = p.1) :
    ∀ (fuel : Nat) (e : NodeEntry), dictGet m e.serverID = some e →
      ∀ nd ∈ preorderNodes [materializeNode m fuel e],
        ∃ e', dictGet m nd.serverID = some e' ∧ nd.name = e'.name ∧
          nd.parentID = e'.parentID ∧ nd.rawItem = e'.rawItem := by
  intro fuel
  induction fuel with
  | zero =>
    intro e hget nd hnd'
    simp only [materializeNode, preorderNodes, List.append_nil, List.mem_singleton] at hnd'
    subst hnd'
    exact ⟨e, hget, rfl, rfl, rfl⟩
  | succ fuel ih =>
    intro e hget nd hnd'
    simp only [materializeNode, preorderNodes, List.append_nil, List.mem_cons] at hnd'
    rcases hnd' with rfl | hnd'
    · exact ⟨e, hget, rfl, rfl, rfl⟩
    · rw [preorderNodes_eq_flatMap, List.flatMap_map] at hnd'
      obtain ⟨c, hcC, hndc⟩ := List.mem_flatMap.mp hnd'
      have hc := (mem_childEntries hnd hsid).mp hcC
      exact ih c hc.1 nd hndc

theorem build_preorder_entries (items : List RawItem) :
    ∀ nd ∈ preorderNodes (build_folder_hierarchy items),
      ∃ e', dictGet (buildNodes items) nd.serverID = some e' ∧ nd.name = e'.name ∧
        nd.parentID = e'.parentID ∧ nd.rawItem = e'.rawItem := by
  have hnd := buildNodes_keys_nodup items
  have hsid := buildNodes_serverID_eq_key items
  intro nd hnd'
  unfold build_folder_hierarchy at hnd'
  rw [preorderNodes_eq_flatMap, List.flatMap_map] at hnd'
  obtain ⟨r, hr, hndr⟩ := List.mem_flatMap.mp hnd'
  have hroot := (mem_rootEntries hnd hsid).mp hr
  exact mat_preorder_entries hnd hsid _ r hroot.1 nd hndr

theorem forestIds_build_sub_keys (items : List RawItem) :
    ∀ d ∈ forestIds (build_folder_hierarchy items), d ∈ dictKeys (buildNodes items) := by
  intro d hd
  obtain ⟨nd, hnd', hsd⟩ := List.mem_map.mp hd
  obtain ⟨e', hget, _⟩ := build_preorder_entries items nd hnd'
  rw [hsd] at hget
  exact List.mem_map.mpr ⟨_, dictGet_mem hget, rfl⟩

/-! ### The dict built from a batch with unique derived ids -/

theorem find?_eid_self {items : List RawItem} {x : RawItem}
    (hu : (items.map extract_server_id).Nodup) (hx : x ∈ items) :
    items.find? (fun it => extract_server_id it = extract_server_id x) = some x := by
  induction items with
  | nil => cases hx
  | cons it its ih =>
    rw [List.map_cons, List.nodup_cons] at hu
    by_cases hit : extract_server_id it = extract_server_id x
    · rw [List.find?_cons_of_pos _ (by simpa using hit)]
      rcases List.mem_cons.mp hx with rfl | hx'
      · rfl
      · exact absurd (hit ▸ List.mem_map.mpr ⟨x, hx', rfl⟩) hu.1
    · rw [List.find?_cons_of_neg _ (by simpa using hit)]
      rcases List.mem_cons.mp hx with rfl | hx'
      · exact absurd rfl hit
      · exact ih hu.2 hx'

theorem dictGet_map_eid (items : List RawItem) (k : String) :
    dictGet (items.map (fun it => (extract_server_id it, mkNodeEntry it))) k =
      (items.find? (fun it => extract_server_id it = k)).map mkNodeEntry := by
  induction items with
  | nil => rfl
  | cons it its ih =>
    rw [List.map_cons]
    by_cases h : extract_server_id it = k
    · unfold dictGet
      rw [List.find?_cons_of_pos _ (by simpa using h),
        List.find?_cons_of_pos _ (by simpa using h)]
      rfl
    · unfold dictGet
      rw [List.find?_cons_of_neg _ (by simpa using h),
        List.find?_cons_of_neg _ (by simpa using h)]
      exact ih

theorem dictGet_buildNodes_of_nodup {items : List RawItem} {x : RawItem}
    (hu : (items.map extract_server_id).Nodup) (hx : x ∈ items) :
    dictGet (buildNodes items) (extract_server_id x) = some (mkNodeEntry x) := by
  rw [buildNodes_of_nodup hu, dictGet_map_eid, find?_eid_self hu hx]
  rfl

theorem buildNodes_keys_of_nodup {items : List RawItem}
    (hu : (items.map extract_server_id).Nodup) :
    dictKeys (buildNodes items) = items.map extract_server_id := by
  rw [buildNodes_keys, firstOccurrences_of_nodup hu]

theorem build_map_serverID (items : List RawItem) :
    (build_folder_hierarchy items).map FolderNode.serverID = rootIds (buildNodes items) := by
  unfold build_folder_hierarchy rootIds
  rw [List.map_map]
  refine List.map_congr_left ?_
  intro e _
  exact materializeNode_serverID _ _ e

/-! ## Claim theorems -/

/-- C1 (amended): for a batch with unique derived ids whose in-batch parent
chains all terminate (the parent relation is acyclic), every input item
appears exactly once in the result of `build_folder_hierarchy` — its id
lands either in the root list or in exactly one parent's child list (their
concatenation is a permutation of the input ids) — and the multiset of ids
reachable by pre-order traversal of the returned forest equals the multiset
of input ids. -/
theorem c1_build_partition_and_traversal (items : List RawItem)
    (hu : (items.map extract_server_id).Nodup)
    (hacyc : ∀ k ∈ dictKeys (buildNodes items),
      chase (buildNodes items) (buildNodes items).length (some k) = none) :
    (rootIds (buildNodes items) ++
        (dictKeys (buildNodes items)).flatMap
          (fun k => childIds (buildNodes items) k)).Perm
      (items.map extract_server_id)
    ∧ (forestIds (build_folder_hierarchy items)).Perm (items.map extract_server_id) := by
  have hkeys := buildNodes_keys_of_nodup hu
  constructor
  · rw [← hkeys]
    exact flat_partition_perm items
  · obtain ⟨hmem, hnodup⟩ := build_forest_mem_nodup items hacyc
    refine perm_of_nodup_mem_iff hnodup
      (by rw [← hkeys]; exact buildNodes_keys_nodup items) ?_
    intro a
    rw [hmem a, hkeys]

theorem c1_witness :
    ((demoBatch.map extract_server_id).Nodup
      ∧ ∀ k ∈ dictKeys (buildNodes demoBatch),
          chase (buildNodes demoBatch) (buildNodes demoBatch).length (some k) = none)
    ∧ ((rootIds (buildNodes demoBatch) ++
          (dictKeys (buildNodes demoBatch)).flatMap
            (fun k => childIds (buildNodes demoBatch) k)).Perm
        (demoBatch.map extract_server_id)
      ∧ (forestIds (build_folder_hierarchy demoBatch)).Perm
          (demoBatch.map extract_server_id)) :=
  ⟨⟨by decide, by decide⟩,
    c1_build_partition_and_traversal demoBatch (by decide) (by decide)⟩

/-- C1 counterexample: the batch `[cexLoop]` has unique derived ids, yet
the item — its own parent — is attached to its own child list, the
returned forest is empty, and the traversal misses the input id: the
claim's conclusion fails with no hypothesis violated. -/
theorem c1_cycle_counterexample :
    ([cexLoop].map extract_server_id).Nodup
    ∧ build_folder_hierarchy [cexLoop] = []
    ∧ ¬ (forestIds (build_folder_hierarchy [cexLoop])).Perm
        ([cexLoop].map extract_server_id) := by
  have hb : build_folder_hierarchy [cexLoop] = [] := by rfl
  refine ⟨by decide, hb, ?_⟩
  rw [hb]
  intro hperm
  have hlen := hperm.length_eq
  simp [forestIds, preorderNodes] at hlen

/-- C2 (amended): in a batch with unique derived ids, an item's node
appears in the root sequence returned by `build_folder_hierarchy` iff its
`parentReference.id` is absent, or empty, or non-empty but not equal to
the derived id of any item of the batch. -/
theorem c2_root_iff (items : List RawItem) (hu : (items.map extract_server_id).Nodup)
    (x : RawItem) (hx : x ∈ items) :
    extract_server_id x ∈ (build_folder_hierarchy items).map FolderNode.serverID ↔
      (x.parentReferenceId = none ∨ x.parentReferenceId = some "" ∨
        ∃ p, x.parentReferenceId = some p ∧ p ∉ items.map extract_server_id) := by
  have hnd := buildNodes_keys_nodup items
  have hsid := buildNodes_serverID_eq_key items
  have hget := dictGet_buildNodes_of_nodup hu hx
  have hkmem : extract_server_id x ∈ dictKeys (buildNodes items) := by
    rw [buildNodes_keys_of_nodup hu]
    exact List.mem_map.mpr ⟨x, hx, rfl⟩
  rw [build_map_serverID, mem_rootIds hnd hsid]
  have hstep : parentStep (buildNodes items) (extract_server_id x) = none ↔
      (x.parentReferenceId = none ∨ x.parentReferenceId = some "" ∨
        ∃ p, x.parentReferenceId = some p ∧ p ∉ items.map extract_server_id) := by
    simp only [parentStep, hget, mkNodeEntry]
    cases hp : x.parentReferenceId with
    | none => simp
    | some p =>
      simp only []
      by_cases hpe : p = ""
      · rw [if_pos hpe]
        simp [hpe]
      · rw [if_neg hpe]
        by_cases hk : keyMem (buildNodes items) p = true
        · rw [if_pos hk]
          constructor
          · intro h
            cases h
          · rintro (h | h | ⟨q, hq, hnq⟩)
            · cases h
            · exact absurd (by injection h) hpe
            · refine absurd ?_ hnq
              injection hq with hq'
              rw [← hq', ← buildNodes_keys_of_nodup hu]
              exact keyMem_iff.mp hk
        · rw [if_neg hk]
          constructor
          · intro _
            refine Or.inr (Or.inr ⟨p, rfl, fun hmem => ?_⟩)
            exact hk (keyMem_iff.mpr (by rw [buildNodes_keys_of_nodup hu]; exact hmem))
          · intro _
            rfl
  exact ⟨fun h => hstep.mp h.2, fun h => ⟨hkmem, hstep.mpr h⟩⟩

theorem c2_witness :
    ((demoBatch.map extract_server_id).Nodup ∧ demoE ∈ demoBatch)
    ∧ (extract_server_id demoE ∈
        (build_folder_hierarchy demoBatch).map FolderNode.serverID ↔
      (demoE.parentReferenceId = none ∨ demoE.parentReferenceId = some "" ∨
        ∃ p, demoE.parentReferenceId = some p ∧
          p ∉ demoBatch.map extract_server_id)) :=
  ⟨⟨by decide, by decide⟩, c2_root_iff demoBatch (by decide) demoE (by decide)⟩

/-- C2 counterexample: in the batch `[cexEmptyId, cexEmptyParent]` the
derived ids are unique, `cexEmptyParent`'s parent id is present and equals
the derived id `""` of `cexEmptyId`, so the claim as stated says its node
must not be a root; `build_folder_hierarchy` nevertheless lists it among
the roots (Python treats the empty string as falsy). -/
theorem c2_counterexample :
    ([cexEmptyId, cexEmptyParent].map extract_server_id).Nodup
    ∧ cexEmptyParent.parentReferenceId = some ""
    ∧ "" ∈ [cexEmptyId, cexEmptyParent].map extract_server_id
    ∧ extract_server_id cexEmptyParent = "X"
    ∧ "X" ∈ (build_folder_hierarchy
        [cexEmptyId, cexEmptyParent]).map FolderNode.serverID := by
  refine ⟨by decide, by decide, by decide, by decide, by decide⟩

/-- C3 (amended): for a batch with unique derived ids and acyclic in-batch
parent chains, `find_folder_by_id_in_hierarchy` on the built forest
returns, for every item's derived id, a node carrying that id and the
item's display name; and for every id not derived by any item it returns
`none`. -/
theorem c3_findById_build (items : List RawItem)
    (hu : (items.map extract_server_id).Nodup)
    (hacyc : ∀ k ∈ dictKeys (buildNodes items),
      chase (buildNodes items) (buildNodes items).length (some k) = none) :
    (∀ x ∈ items, ∃ nd,
        find_folder_by_id_in_hierarchy (build_folder_hierarchy items)
            (extract_server_id x) = some nd
          ∧ nd.serverID = extract_server_id x ∧ nd.name = x.fileLeafRef)
    ∧ ∀ t, t ∉ items.map extract_server_id →
        find_folder_by_id_in_hierarchy (build_folder_hierarchy items) t = none := by
  constructor
  · intro x hx
    have hmem : extract_server_id x ∈ forestIds (build_folder_hierarchy items) := by
      refine ((build_forest_mem_nodup items hacyc).1 (extract_server_id x)).mpr ?_
      rw [buildNodes_keys_of_nodup hu]
      exact List.mem_map.mpr ⟨x, hx, rfl⟩
    obtain ⟨nd, hnd⟩ := find_isSome_of_mem hmem
    obtain ⟨hndmem, hndsid⟩ := find_some_spec hnd
    obtain ⟨e', hget, hname, _, _⟩ := build_preorder_entries items nd hndmem
    rw [hndsid, dictGet_buildNodes_of_nodup hu hx] at hget
    refine ⟨nd, hnd, hndsid, ?_⟩
    rw [hname]
    injection hget with hg
    rw [← hg]
    rfl
  · intro t ht
    rw [find_eq_none_iff]
    intro hmem
    have hk := forestIds_build_sub_keys items t hmem
    rw [buildNodes_keys] at hk
    exact ht (mem_firstOccurrences.mp hk)

theorem c3_witness :
    ((demoBatch.map extract_server_id).Nodup
      ∧ (∀ k ∈ dictKeys (buildNodes demoBatch),
          chase (buildNodes demoBatch) (buildNodes demoBatch).length (some k) = none)
      ∧ demoB ∈ demoBatch)
    ∧ ∃ nd, find_folder_by_id_in_hierarchy (build_folder_hierarchy demoBatch)
          (extract_server_id demoB) = some nd
        ∧ nd.serverID = extract_server_id demoB ∧ nd.name = demoB.fileLeafRef :=
  ⟨⟨by decide, by decide, by decide⟩,
    (c3_findById_build demoBatch (by decide) (by decide)).1 demoB (by decide)⟩

/-- C3 counterexample: `[cexLoop]` is a batch with unique, well-formed
derived ids (a single item of id `"A"`), but the item declares itself as
its parent; the built forest is empty and the lookup of `"A"` returns
`none` instead of a node with the item's id and name. -/
theorem c3_cycle_counterexample :
    ([cexLoop].map extract_server_id).Nodup
    ∧ extract_server_id cexLoop = "A"
    ∧ cexLoop.fileLeafRef = some "loop"
    ∧ find_folder_by_id_in_hierarchy (build_folder_hierarchy [cexLoop]) "A" = none := by
  have hb : build_folder_hierarchy [cexLoop] = [] := by rfl
  refine ⟨by decide, by decide, by decide, ?_⟩
  rw [hb, find_folder_by_id_in_hierarchy]

/-- C5: when two items of one batch derive the same id, the later one
overwrites the earlier one's entry in the id-to-node index built by the
first pass: after the pass the index maps that id to the node of the last
item deriving it, and the id occupies a single index slot. -/
theorem c5_last_write_wins (pre mid post : List RawItem) (x y : RawItem)
    (hxy : extract_server_id x = extract_server_id y)
    (hpost : ∀ z ∈ post, extract_server_id z ≠ extract_server_id y) :
    dictGet (buildNodes (pre ++ x :: (mid ++ y :: post))) (extract_server_id y) =
      some (mkNodeEntry y)
    ∧ dictGet (buildNodes (pre ++ x :: (mid ++ y :: post))) (extract_server_id x) =
      some (mkNodeEntry y)
    ∧ (dictKeys (buildNodes (pre ++ x :: (mid ++ y :: post)))).count
        (extract_server_id y) = 1 := by
  have hget : dictGet (buildNodes (pre ++ x :: (mid ++ y :: post)))
      (extract_server_id y) = some (mkNodeEntry y) := by
    unfold buildNodes
    rw [dictGet_foldl _ [] (by simp [dictKeys]) (extract_server_id y)]
    have hrev : (pre ++ x :: (mid ++ y :: post)).reverse =
        post.reverse ++ y :: (mid.reverse ++ (x :: pre.reverse)) := by
      simp
    rw [hrev, List.find?_append]
    have hpostnone : post.reverse.find?
        (fun it => extract_server_id it = extract_server_id y) = none := by
      rw [List.find?_eq_none]
      intro z hz hc
      exact hpost z (List.mem_reverse.mp hz) (by simpa using hc)
    rw [hpostnone, Option.none_or, List.find?_cons_of_pos _ (by simp)]
    rfl
  refine ⟨hget, by rw [hxy]; exact hget, ?_⟩
  have hmem : extract_server_id y ∈ dictKeys (buildNodes (pre ++ x :: (mid ++ y :: post))) := by
    by_contra h
    rw [dictGet_eq_none_iff.mpr h] at hget
    cases hget
  exact List.count_eq_one_of_mem (buildNodes_keys_nodup _) hmem

theorem c5_witness :
    (extract_server_id dupFirst = extract_server_id dupSecond
      ∧ ∀ z ∈ ([] : List RawItem), extract_server_id z ≠ extract_server_id dupSecond)
    ∧ (dictGet (buildNodes ([] ++ dupFirst :: ([] ++ dupSecond :: [])))
          (extract_server_id dupSecond) = some (mkNodeEntry dupSecond)
      ∧ dictGet (buildNodes ([] ++ dupFirst :: ([] ++ dupSecond :: [])))
          (extract_server_id dupFirst) = some (mkNodeEntry dupSecond)
      ∧ (dictKeys (buildNodes ([] ++ dupFirst :: ([] ++ dupSecond :: [])))).count
          (extract_server_id dupSecond) = 1) :=
  ⟨⟨by decide, by decide⟩,
    c5_last_write_wins [] [] [] dupFirst dupSecond (by decide) (by decide)⟩

/-- C6: build raises no error for any input item — in this embedding the
derivation and the build are total functions; the id derivation strips
wrapping quote characters and takes the prefix before the first comma, so
a comma-free version tag yields the whole stripped string, an absent or
empty version tag yields the empty string, and every item's derived id is
inserted as a key of the index. -/
theorem c6_derivation_graceful :
    (∀ (s : String) (o1 o2 o3 : Option String), (',' ∉ pyStripQuote s.data) →
        extract_server_id ⟨some s, o1, o2, o3⟩ = ⟨pyStripQuote s.data⟩)
    ∧ (∀ o1 o2 o3 : Option String, extract_server_id ⟨some "", o1, o2, o3⟩ = ""
        ∧ extract_server_id ⟨none, o1, o2, o3⟩ = "")
    ∧ ∀ (items : List RawItem) (x : RawItem), x ∈ items →
        extract_server_id x ∈ dictKeys (buildNodes items) := by
  refine ⟨?_, ?_, ?_⟩
  · intro s o1 o2 o3 hnc
    unfold extract_server_id
    simp only [Option.getD_some]
    congr 1
    rw [List.takeWhile_eq_self_iff]
    intro c hc
    simp only [decide_eq_true_eq]
    intro h
    exact hnc (h ▸ hc)
  · intro o1 o2 o3
    exact ⟨rfl, rfl⟩
  · intro items x hx
    rw [buildNodes_keys]
    exact mem_firstOccurrences.mpr (List.mem_map.mpr ⟨x, hx, rfl⟩)

theorem c6_witness :
    ((',' ∉ pyStripQuote ("\"ABC\"" : String).data) ∧ dupFirst ∈ [dupFirst])
    ∧ (extract_server_id ⟨some "\"ABC\"", none, none, none⟩ =
          ⟨pyStripQuote ("\"ABC\"" : String).data⟩
      ∧ extract_server_id dupFirst ∈ dictKeys (buildNodes [dupFirst])) :=
  ⟨⟨by decide, by decide⟩,
    ⟨c6_derivation_graceful.1 "\"ABC\"" none none none (by decide),
      c6_derivation_graceful.2.2 [dupFirst] dupFirst (by decide)⟩⟩

/-- C7: findById returns the first pre-order, left-to-right match of the
forest (each node examined before its children, children before later
siblings), and returns `none` exactly when no node of the forest carries
the target id — so not-found is distinct from every found node, including
a found node with empty children. -/
theorem c7_find_preorder (forest : List FolderNode) (t : String) :
    find_folder_by_id_in_hierarchy forest t =
      (preorderNodes forest).find? (fun nd => nd.serverID = t)
    ∧ (find_folder_by_id_in_hierarchy forest t = none ↔ t ∉ forestIds forest) :=
  ⟨find_eq_preorder_find? forest t, find_eq_none_iff forest t⟩

/-- C8: build is a pure function of its input batch — it retains no state
between calls, and two calls on the same batch return forests with
identical structure (here, equal values). -/
theorem c8_build_pure (items₁ items₂ : List RawItem) (h : items₁ = items₂) :
    build_folder_hierarchy items₁ = build_folder_hierarchy items₂ := by
  rw [h]

theorem c8_witness :
    build_folder_hierarchy demoBatch = build_folder_hierarchy demoBatch :=
  c8_build_pure demoBatch demoBatch rfl

theorem filter_map_fst (P : String × NodeEntry → Bool) (Q : String → Bool)
    (m : List (String × NodeEntry)) (h : ∀ p ∈ m, Q p.1 = P p) :
    (m.filter P).map Prod.fst = (m.map Prod.fst).filter Q := by
  induction m with
  | nil => rfl
  | cons p rest ih =>
    have hp := h p (List.mem_cons_self p rest)
    have hr := ih fun q hq => h q (List.mem_cons_of_mem p hq)
    rw [List.map_cons, List.filter_cons, List.filter_cons, hp]
    cases hP : P p with
    | true => rw [if_pos rfl, if_pos rfl, List.map_cons, hr]
    | false =>
      rw [if_neg (by simp), if_neg (by simp), hr]

theorem isNone_parentStep_eq {m : List (String × NodeEntry)}
    (hnd : (dictKeys m).Nodup) :
    ∀ p ∈ m, (parentStep m p.1).isNone = ! isChildCond m p.2 := by
  intro p hp
  have hget : dictGet m p.1 = some p.2 :=
    mem_dictGet hnd (by rw [← Prod.mk.eta (p := p)] at hp; exact hp)
  have hiff := isChildCond_false_iff hget
  cases hc : isChildCond m p.2 with
  | false =>
    rw [hiff.mp hc]
    rfl
  | true =>
    cases hs : parentStep m p.1 with
    | none =>
      rw [hiff.mpr hs] at hc
      cases hc
    | some q => rfl

theorem beq_parentStep_eq {m : List (String × NodeEntry)} (k : String)
    (hnd : (dictKeys m).Nodup) :
    ∀ p ∈ m, (parentStep m p.1 == some k) =
      (isChildCond m p.2 && p.2.parentID.getD "" = k) := by
  intro p hp
  have hget : dictGet m p.1 = some p.2 :=
    mem_dictGet hnd (by rw [← Prod.mk.eta (p := p)] at hp; exact hp)
  cases hs : parentStep m p.1 with
  | some q =>
    obtain ⟨hc, hpid⟩ := (parentStep_eq_some_iff hget).mp hs
    rw [hc, Bool.true_and, hpid]
    by_cases hqk : q = k <;> simp [hqk]
  | none =>
    have hc : isChildCond m p.2 = false := (isChildCond_false_iff hget).mpr hs
    rw [hc, Bool.false_and]
    rfl

/-- C9: the second pass of `build_folder_hierarchy` iterates the index in
first-insertion order, so the index keys are the derived ids in
first-occurrence order (an overwritten id keeps the slot of its first
occurrence), the root ids are that sequence filtered to the entries with
no in-index parent, each parent's child ids are that sequence filtered to
its own children, and the returned root nodes carry the root ids in that
order. -/
theorem c9_first_insertion_order (items : List RawItem) :
    dictKeys (buildNodes items) = firstOccurrences (items.map extract_server_id)
    ∧ rootIds (buildNodes items) =
        (firstOccurrences (items.map extract_server_id)).filter
          (fun k => (parentStep (buildNodes items) k).isNone)
    ∧ (∀ k, childIds (buildNodes items) k =
        (firstOccurrences (items.map extract_server_id)).filter
          (fun c => parentStep (buildNodes items) c == some k))
    ∧ (build_folder_hierarchy items).map FolderNode.serverID =
        rootIds (buildNodes items) := by
  have hnd := buildNodes_keys_nodup items
  have hsid := buildNodes_serverID_eq_key items
  have hkeys := buildNodes_keys items
  refine ⟨hkeys, ?_, ?_, build_map_serverID items⟩
  · rw [← hkeys]
    unfold rootIds rootEntries
    rw [List.map_map]
    have hmapeq : ((buildNodes items).filter
          (fun p => ! isChildCond (buildNodes items) p.2)).map
          (NodeEntry.serverID ∘ Prod.snd) =
        ((buildNodes items).filter
          (fun p => ! isChildCond (buildNodes items) p.2)).map Prod.fst :=
      List.map_congr_left fun p hp => hsid p (List.mem_of_mem_filter hp)
    rw [hmapeq, filter_map_fst _ (fun k => (parentStep (buildNodes items) k).isNone)
      (buildNodes items) (isNone_parentStep_eq hnd)]
    rfl
  · intro k
    rw [← hkeys]
    unfold childIds childEntries
    rw [List.map_map]
    have hmapeq : ((buildNodes items).filter
          (fun p => isChildCond (buildNodes items) p.2 &&
            p.2.parentID.getD "" = k)).map (NodeEntry.serverID ∘ Prod.snd) =
        ((buildNodes items).filter
          (fun p => isChildCond (buildNodes items) p.2 &&
            p.2.parentID.getD "" = k)).map Prod.fst :=
      List.map_congr_left fun p hp => hsid p (List.mem_of_mem_filter hp)
    rw [hmapeq, filter_map_fst _ (fun c => parentStep (buildNodes items) c == some k)
      (buildNodes items) (beq_parentStep_eq k hnd)]
    rfl

theorem charListLe_total : ∀ x y : List Char,
    charListLe x y = true ∨ charListLe y x = true := by
  intro x
  induction x with
  | nil => intro y; left; rfl
  | cons a as ih =>
    intro y
    cases y with
    | nil => right; rfl
    | cons b bs =>
      by_cases hab : a.toNat < b.toNat
      · left
        rw [charListLe, if_pos hab]
      · by_cases hba : b.toNat < a.toNat
        · right
          rw [charListLe, if_pos hba]
        · rcases ih bs with h | h
          · left
            rw [charListLe, if_neg hab, if_neg hba]
            exact h
          · right
            rw [charListLe, if_neg hba, if_neg hab]
            exact h

theorem charListLe_trans : ∀ x y z : List Char,
    charListLe x y = true → charListLe y z = true → charListLe x z = true := by
  intro x
  induction x with
  | nil => intro y z _ _; rfl
  | cons a as ih =>
    intro y z hxy hyz
    cases y with
    | nil =>
      rw [charListLe] at hxy
      cases hxy
    | cons b bs =>
      cases z with
      | nil =>
        rw [charListLe] at hyz
        cases hyz
      | cons c cs =>
        rw [charListLe] at hxy hyz ⊢
        by_cases hab : a.toNat < b.toNat
        · by_cases hbc : b.toNat < c.toNat
          · rw [if_pos (by omega)]
          · by_cases hcb : c.toNat < b.toNat
            · rw [if_neg hbc, if_pos hcb] at hyz
              cases hyz
            · rw [if_pos (by omega)]
        · by_cases hba : b.toNat < a.toNat
          · rw [if_neg hab, if_pos hba] at hxy
            cases hxy
          · by_cases hbc : b.toNat < c.toNat
            · rw [if_pos (by omega)]
            · by_cases hcb : c.toNat < b.toNat
              · rw [if_neg hbc, if_pos hcb] at hyz
                cases hyz
              · rw [if_neg hbc, if_neg hcb] at hyz
                rw [if_neg hab, if_neg hba] at hxy
                rw [if_neg (by omega), if_neg (by omega)]
                exact ih bs cs hxy hyz

theorem childNameLe_total (a b : ChildFolder) :
    childNameLe a b = true ∨ childNameLe b a = true :=
  charListLe_total _ _

theorem childNameLe_trans (a b c : ChildFolder) (h1 : childNameLe a b = true)
    (h2 : childNameLe b c = true) : childNameLe a c = true :=
  charListLe_trans _ _ _ h1 h2

/-- C4 (amended): `folders_get_children` answers not-found exactly when no
item of the batch derives the target id; otherwise (for a batch with
unique derived ids, writing `x` for the item deriving the target, and
provided every collected child carries a display name — else the sort
raises, see C10) it returns the queried item's declared parent id and
name, resolves the parent id to the parent item's display name when that
id is non-empty and derived by an item of the batch, and returns as
children exactly the items whose declared parent id equals the target and
whose content type is `"Folder"`, ordered by case-insensitive name
ascending. -/
theorem c4_children_query (items : List RawItem) (t : String) :
    (folders_get_children items t = FGCResult.notFound ↔
      ∀ it ∈ items, extract_server_id it ≠ t)
    ∧ (∀ x : RawItem, (items.map extract_server_id).Nodup → x ∈ items →
        extract_server_id x = t →
        (∀ it ∈ items, it.parentReferenceId = some t → it.contentType = some "Folder" →
          it.fileLeafRef ≠ none) →
        ∃ qpn ch,
          folders_get_children items t =
            FGCResult.ok x.parentReferenceId qpn t x.fileLeafRef ch
          ∧ (∀ p y, x.parentReferenceId = some p → p ≠ "" → y ∈ items →
              extract_server_id y = p → qpn = y.fileLeafRef)
          ∧ ch.Perm ((items.filter (fun it =>
              it.parentReferenceId == some t && it.contentType == some "Folder")).map
              (fun it => ChildFolder.mk it.fileLeafRef (extract_server_id it)))
          ∧ ch.Pairwise (fun a b => childNameLe a b = true)) := by
  constructor
  · cases hfind : items.find? (fun it => extract_server_id it = t) with
    | none =>
      simp only [folders_get_children, hfind]
      constructor
      · intro _ it hit hc
        have := List.find?_eq_none.mp hfind it hit
        exact this (by simpa using hc)
      · intro _
        trivial
    | some x =>
      simp only [folders_get_children, hfind]
      constructor
      · intro h
        split at h <;> cases h
      · intro hall
        have hx := List.mem_of_find?_eq_some hfind
        have ht : extract_server_id x = t := by simpa using List.find?_some hfind
        exact absurd ht (hall x hx)
  · intro x hu hx hxt hnames
    have hfind : items.find? (fun it => extract_server_id it = t) = some x := by
      rw [← hxt]
      exact find?_eid_self hu hx
    have hany : ((items.filter (fun it =>
        it.parentReferenceId == some t && it.contentType == some "Folder")).map
        (fun it => ChildFolder.mk it.fileLeafRef (extract_server_id it))).any
        (fun c => c.name = none) = false := by
      rw [List.any_eq_false]
      intro c hc
      obtain ⟨it, hitmem, rfl⟩ := List.mem_map.mp hc
      obtain ⟨hitems, hcond⟩ := List.mem_filter.mp hitmem
      rw [Bool.and_eq_true] at hcond
      have h1 : it.parentReferenceId = some t := by
        have := hcond.1
        rwa [beq_iff_eq] at this
      have h2 : it.contentType = some "Folder" := by
        have := hcond.2
        rwa [beq_iff_eq] at this
      have h3 := hnames it hitems h1 h2
      simpa using h3
    simp only [folders_get_children, hfind]
    rw [if_neg (by rw [hany]; exact Bool.false_ne_true)]
    refine ⟨_, _, rfl, ?_, ?_, ?_⟩
    · intro p y hp hpne hy hyp
      have hfp : items.find? (fun it => extract_server_id it = p) = some y := by
        rw [← hyp]
        exact find?_eid_self hu hy
      simp only [hp, if_neg hpne, hfp]
    · exact List.perm_insertionSort _ _
    · have hs := @List.sorted_insertionSort ChildFolder
        (fun a b => childNameLe a b = true) (fun a b => inferInstance)
        ⟨fun a b => childNameLe_total a b⟩
        ⟨fun a b c h1 h2 => childNameLe_trans a b c h1 h2⟩
        ((items.filter (fun it =>
          it.parentReferenceId == some t && it.contentType == some "Folder")).map
          (fun it => ChildFolder.mk it.fileLeafRef (extract_server_id it)))
      exact hs

/-- C4 counterexample: in the batch `[cexEmptyId, cexEmptyParent]` the
target item `cexEmptyParent` declares parent id `""`, which is present in
the batch (it is `cexEmptyId`'s derived id, and `cexEmptyId` has display
name `"bee"`); the claim as stated says the parent name is resolved, but
the handler returns `none` for it (Python's truthiness test skips the
scan for an empty parent id). -/
theorem c4_counterexample :
    folders_get_children [cexEmptyId, cexEmptyParent] "X" =
      FGCResult.ok (some "") none "X" (some "ax") []
    ∧ extract_server_id cexEmptyId = ""
    ∧ cexEmptyId ∈ [cexEmptyId, cexEmptyParent]
    ∧ cexEmptyId.fileLeafRef = some "bee"
    ∧ (⟨some "bee", ""⟩ : ChildFolder).name ≠ none := by
  refine ⟨by decide, by decide, by decide, by decide, by decide⟩

theorem c4_witness :
    ∃ qpn ch,
      folders_get_children demoBatch "A" =
        FGCResult.ok demoA.parentReferenceId qpn "A" demoA.fileLeafRef ch
      ∧ (∀ p y, demoA.parentReferenceId = some p → p ≠ "" → y ∈ demoBatch →
          extract_server_id y = p → qpn = y.fileLeafRef)
      ∧ ch.Perm ((demoBatch.filter (fun it =>
          it.parentReferenceId == some "A" && it.contentType == some "Folder")).map
          (fun it => ChildFolder.mk it.fileLeafRef (extract_server_id it)))
      ∧ ch.Pairwise (fun a b => childNameLe a b = true) :=
  (c4_children_query demoBatch "A").2 demoA (by decide) (by decide) (by decide)
    (by decide)

/-- C10: `folders_get_children` is total only when every collected child
has a display name: if the target is found and some item whose declared
parent id equals the target and whose content type is `"Folder"` lacks a
display name, the handler raises (the sort key applies `lower` to `None`);
if every collected child is named, the handler never raises that error. -/
theorem c10_sort_name_crash (items : List RawItem) (t : String) :
    ((∃ x, items.find? (fun it => extract_server_id it = t) = some x) →
      (∃ it ∈ items, it.parentReferenceId = some t ∧ it.contentType = some "Folder" ∧
        it.fileLeafRef = none) →
      folders_get_children items t = FGCResult.attrError)
    ∧ ((∀ it ∈ items, it.parentReferenceId = some t → it.contentType = some "Folder" →
        it.fileLeafRef ≠ none) →
      folders_get_children items t ≠ FGCResult.attrError) := by
  constructor
  · rintro ⟨x, hfind⟩ ⟨it, hitmem, h1, h2, h3⟩
    simp only [folders_get_children, hfind]
    have hmem : (ChildFolder.mk it.fileLeafRef (extract_server_id it)) ∈
        ((items.filter (fun z =>
          z.parentReferenceId == some t && z.contentType == some "Folder")).map
          (fun z => ChildFolder.mk z.fileLeafRef (extract_server_id z))) :=
      List.mem_map.mpr ⟨it, List.mem_filter.mpr ⟨hitmem, by
        rw [Bool.and_eq_true]
        exact ⟨beq_iff_eq.mpr h1, beq_iff_eq.mpr h2⟩⟩, rfl⟩
    have hany : ((items.filter (fun z =>
        z.parentReferenceId == some t && z.contentType == some "Folder")).map
        (fun z => ChildFolder.mk z.fileLeafRef (extract_server_id z))).any
        (fun c => c.name = none) = true :=
      List.any_eq_true.mpr ⟨_, hmem, by simpa using h3⟩
    rw [if_pos hany]
  · intro hnames
    cases hfind : items.find? (fun it => extract_server_id it = t) with
    | none =>
      simp only [folders_get_children, hfind]
      intro h
      cases h
    | some x =>
      simp only [folders_get_children, hfind]
      have hany : ((items.filter (fun z =>
          z.parentReferenceId == some t && z.contentType == some "Folder")).map
          (fun z => ChildFolder.mk z.fileLeafRef (extract_server_id z))).any
          (fun c => c.name = none) = false := by
        rw [List.any_eq_false]
        intro c hc
        obtain ⟨z, hzmem, rfl⟩ := List.mem_map.mp hc
        obtain ⟨hzitems, hzcond⟩ := List.mem_filter.mp hzmem
        rw [Bool.and_eq_true] at hzcond
        have h1 : z.parentReferenceId = some t := by
          have := hzcond.1
          rwa [beq_iff_eq] at this
        have h2 : z.contentType = some "Folder" := by
          have := hzcond.2
          rwa [beq_iff_eq] at this
        simpa using hnames z hzitems h1 h2
      rw [if_neg (by rw [hany]; exact Bool.false_ne_true)]
      intro h
      cases h

theorem c10_witness :
    folders_get_children (demoBatch ++ [cexNoName]) "A" = FGCResult.attrError :=
  (c10_sort_name_crash (demoBatch ++ [cexNoName]) "A").1
    (by exact ⟨demoA, by decide⟩) (by decide)
